import Mathlib

/-!
Verification development for the GitStory `DiffViewer` line-diff engine.

The source file contains two diff implementations:

* `computeDiff` (second implementation): splits both texts on `"\n"`,
  truncates each side to `MAX_LINES = 500` lines, then walks both truncated
  sides in lock-step by index `i`, emitting `added`, `removed`,
  `unchanged` or a `removed`/`added` pair per position `i + 1`.
* a membership-based while-loop diff (first implementation): advances two
  indices `beforeIdx`/`afterIdx`, classifying a before-line as `removed`
  when its text occurs nowhere in the after side.

Both are embedded below, together with the split-view classification
(`Set.has`-based) and the annotation lookup.
-/

namespace GitStory

inductive DiffKind where
  | unchanged
  | removed
  | added
deriving DecidableEq, Repr

structure DiffLine where
  kind : DiffKind
  lineNumber : Nat
  content : String
deriving DecidableEq, Repr

/-- Model of the JavaScript `s.split("\n")`: splits at every newline
character; the empty string yields `[""]` (a single empty line), and a
trailing newline yields a final empty line, exactly as in JavaScript. -/
def splitLinesAux : List Char → List Char → List String
  | [], acc => [String.mk acc.reverse]
  | c :: cs, acc =>
    if c = '\n' then String.mk acc.reverse :: splitLinesAux cs []
    else splitLinesAux cs (c :: acc)

/-- Model of `(beforeCode || "").split("\n")` from the source. -/
def splitLines (s : String) : List String :=
  splitLinesAux s.data []

/-- The truncation bound `const MAX_LINES = 500;` of `computeDiff`. -/
def MAX_LINES : Nat := 500

/-- One iteration of the `for` loop body of `computeDiff`
(source branches in order: before `undefined` / after defined → `added`;
before defined / after `undefined` → `removed`; `beforeLine === afterLine`
→ `unchanged` with content `afterLine || ""`; otherwise a `removed` record
followed by an `added` record). -/
def diffStep (beforeLine afterLine : Option String) (pos : Nat) : List DiffLine :=
  match beforeLine, afterLine with
  | none, some a => [⟨.added, pos, a⟩]
  | some b, none => [⟨.removed, pos, b⟩]
  | some b, some a =>
    if b = a then [⟨.unchanged, pos, a⟩]
    else [⟨.removed, pos, b⟩, ⟨.added, pos, a⟩]
  | none, none => [⟨.unchanged, pos, ""⟩]

/-- Model of `computeDiff` from the source: split both texts, truncate each side to
`MAX_LINES`, and iterate `i = 0 … max(before.length, after.length) - 1`,
pushing `diffStep` records at position `i + 1`. -/
def computeDiff (beforeCode afterCode : String) : List DiffLine :=
  let beforeLines := splitLines beforeCode
  let afterLines := splitLines afterCode
  let before := beforeLines.take MAX_LINES
  let after := afterLines.take MAX_LINES
  let maxLen := max before.length after.length
  (List.range maxLen).flatMap fun i => diffStep before[i]? after[i]? (i + 1)

/-- Recursive form of the lock-step walk of `computeDiff`; proved equal to
`computeDiff`'s indexed loop below (`computeDiff_eq_diffWalk`), and used
for inductive proofs.  `k` is the number of positions already consumed. -/
def diffWalk : List String → List String → Nat → List DiffLine
  | [], [], _ => []
  | [], a :: as, k => ⟨.added, k + 1, a⟩ :: diffWalk [] as (k + 1)
  | b :: bs, [], k => ⟨.removed, k + 1, b⟩ :: diffWalk bs [] (k + 1)
  | b :: bs, a :: as, k =>
    if b = a then ⟨.unchanged, k + 1, a⟩ :: diffWalk bs as (k + 1)
    else ⟨.removed, k + 1, b⟩ :: ⟨.added, k + 1, a⟩ :: diffWalk bs as (k + 1)

/-- The indexed loop of `computeDiff` agrees with the recursive walk
`diffWalk`, for any starting offset `k`. -/
theorem flatMap_diffStep_eq_diffWalk (bs as : List String) (k : Nat) :
    ((List.range (max bs.length as.length)).flatMap fun i =>
      diffStep bs[i]? as[i]? (k + i + 1)) = diffWalk bs as k := by
  induction bs, as, k using diffWalk.induct with
  | case1 k => simp [diffWalk]
  | case2 a as k ih =>
    have harith : ∀ i : Nat, k + (i + 1) + 1 = (k + 1) + i + 1 := fun i => by omega
    simp only [List.length_nil, List.length_cons, Nat.zero_max,
      List.range_succ_eq_map, List.flatMap_cons, List.flatMap_map,
      Nat.succ_eq_add_one, Nat.add_zero, List.getElem?_nil,
      List.getElem?_cons_succ, List.getElem?_cons_zero, harith] at ih ⊢
    rw [ih]
    simp [diffStep, diffWalk]
  | case3 b bs k ih =>
    have harith : ∀ i : Nat, k + (i + 1) + 1 = (k + 1) + i + 1 := fun i => by omega
    simp only [List.length_nil, List.length_cons, Nat.max_zero,
      List.range_succ_eq_map, List.flatMap_cons, List.flatMap_map,
      Nat.succ_eq_add_one, Nat.add_zero, List.getElem?_nil,
      List.getElem?_cons_succ, List.getElem?_cons_zero, harith] at ih ⊢
    rw [ih]
    simp [diffStep, diffWalk]
  | case4 bs a as k ih =>
    have harith : ∀ i : Nat, k + (i + 1) + 1 = (k + 1) + i + 1 := fun i => by omega
    simp only [List.length_cons, Nat.succ_max_succ,
      List.range_succ_eq_map, List.flatMap_cons, List.flatMap_map,
      Nat.succ_eq_add_one, Nat.add_zero,
      List.getElem?_cons_succ, List.getElem?_cons_zero, harith] at ih ⊢
    rw [ih]
    simp [diffStep, diffWalk]
  | case5 b bs a as k h ih =>
    have harith : ∀ i : Nat, k + (i + 1) + 1 = (k + 1) + i + 1 := fun i => by omega
    simp only [List.length_cons, Nat.succ_max_succ,
      List.range_succ_eq_map, List.flatMap_cons, List.flatMap_map,
      Nat.succ_eq_add_one, Nat.add_zero,
      List.getElem?_cons_succ, List.getElem?_cons_zero, harith] at ih ⊢
    rw [ih]
    simp [diffStep, diffWalk, h]

/-- `computeDiff` is the walk over the two truncated line lists. -/
theorem computeDiff_eq_diffWalk (beforeCode afterCode : String) :
    computeDiff beforeCode afterCode =
      diffWalk ((splitLines beforeCode).take MAX_LINES)
        ((splitLines afterCode).take MAX_LINES) 0 := by
  have h := flatMap_diffStep_eq_diffWalk
    ((splitLines beforeCode).take MAX_LINES)
    ((splitLines afterCode).take MAX_LINES) 0
  simpa [computeDiff] using h

/-- The run of `added` records produced once the before side is exhausted:
one record per line, positions `k, k + 1, …`. -/
def addedFrom : List String → Nat → List DiffLine
  | [], _ => []
  | a :: as, k => ⟨.added, k, a⟩ :: addedFrom as (k + 1)

/-- The run of `removed` records produced once the after side is exhausted. -/
def removedFrom : List String → Nat → List DiffLine
  | [], _ => []
  | b :: bs, k => ⟨.removed, k, b⟩ :: removedFrom bs (k + 1)

theorem diffWalk_nil_left (as : List String) (k : Nat) :
    diffWalk [] as k = addedFrom as (k + 1) := by
  induction as generalizing k with
  | nil => simp [diffWalk, addedFrom]
  | cons a as ih => simp [diffWalk, addedFrom, ih]

theorem diffWalk_nil_right (bs : List String) (k : Nat) :
    diffWalk bs [] k = removedFrom bs (k + 1) := by
  induction bs generalizing k with
  | nil => simp [diffWalk, removedFrom]
  | cons b bs ih => simp [diffWalk, removedFrom, ih]

theorem diffWalk_nil_cons (a : String) (as : List String) (k : Nat) :
    diffWalk [] (a :: as) k = ⟨.added, k + 1, a⟩ :: diffWalk [] as (k + 1) := by
  simp [diffWalk]

theorem diffWalk_cons_nil (b : String) (bs : List String) (k : Nat) :
    diffWalk (b :: bs) [] k = ⟨.removed, k + 1, b⟩ :: diffWalk bs [] (k + 1) := by
  simp [diffWalk]

theorem diffWalk_cons_cons (b : String) (bs : List String) (a : String)
    (as : List String) (k : Nat) :
    diffWalk (b :: bs) (a :: as) k =
      if b = a then ⟨.unchanged, k + 1, a⟩ :: diffWalk bs as (k + 1)
      else ⟨.removed, k + 1, b⟩ :: ⟨.added, k + 1, a⟩ :: diffWalk bs as (k + 1) := by
  by_cases h : b = a
  · simp [diffWalk, h]
  · simp [diffWalk, h]

theorem diffWalk_mem_lineNumber {bs as : List String} {k : Nat} {r : DiffLine}
    (hr : r ∈ diffWalk bs as k) :
    k + 1 ≤ r.lineNumber ∧ r.lineNumber ≤ k + max bs.length as.length := by
  induction bs, as, k using diffWalk.induct with
  | case1 k => simp [diffWalk] at hr
  | case2 a as k ih =>
    rw [diffWalk_nil_cons] at hr
    rcases List.mem_cons.mp hr with h | h
    · subst h; simp
    · have := ih h
      simp at this ⊢; omega
  | case3 b bs k ih =>
    rw [diffWalk_cons_nil] at hr
    rcases List.mem_cons.mp hr with h | h
    · subst h; simp
    · have := ih h
      simp at this ⊢; omega
  | case4 bs a as k ih =>
    rw [diffWalk_cons_cons, if_pos rfl] at hr
    rcases List.mem_cons.mp hr with h | h
    · subst h; simp
    · have := ih h
      simp at this ⊢; omega
  | case5 b bs a as k h ih =>
    rw [diffWalk_cons_cons, if_neg h] at hr
    rcases List.mem_cons.mp hr with h' | h'
    · subst h'; simp
    · rcases List.mem_cons.mp h' with h'' | h''
      · subst h''; simp
      · have := ih h''
        simp at this ⊢; omega

theorem diffWalk_length_le (bs as : List String) (k : Nat) :
    (diffWalk bs as k).length ≤ 2 * max bs.length as.length := by
  induction bs, as, k using diffWalk.induct with
  | case1 k => simp [diffWalk]
  | case2 a as k ih => simp [diffWalk] at ih ⊢; omega
  | case3 b bs k ih => simp [diffWalk] at ih ⊢; omega
  | case4 bs a as k ih => simp [diffWalk] at ih ⊢; omega
  | case5 b bs a as k h ih => simp [diffWalk, h] at ih ⊢; omega

theorem diffWalk_proj_before (bs as : List String) (k : Nat) :
    ((diffWalk bs as k).filter fun r => !(r.kind == DiffKind.added)).map
      (fun r => r.content) = bs := by
  induction bs, as, k using diffWalk.induct with
  | case1 k => simp [diffWalk]
  | case2 a as k ih => simpa [diffWalk] using ih
  | case3 b bs k ih => simpa [diffWalk] using ih
  | case4 bs a as k ih => simpa [diffWalk] using ih
  | case5 b bs a as k h ih => simpa [diffWalk, h] using ih

theorem diffWalk_proj_after (bs as : List String) (k : Nat) :
    ((diffWalk bs as k).filter fun r => !(r.kind == DiffKind.removed)).map
      (fun r => r.content) = as := by
  induction bs, as, k using diffWalk.induct with
  | case1 k => simp [diffWalk]
  | case2 a as k ih => simpa [diffWalk] using ih
  | case3 b bs k ih => simpa [diffWalk] using ih
  | case4 bs a as k ih => simpa [diffWalk] using ih
  | case5 b bs a as k h ih => simpa [diffWalk, h] using ih

theorem diffWalk_self (l : List String) (k : Nat) :
    ((diffWalk l l k).all fun r => r.kind == DiffKind.unchanged) = true ∧
      (diffWalk l l k).length = l.length := by
  induction l generalizing k with
  | nil => simp [diffWalk]
  | cons x l ih =>
    have := ih (k + 1)
    simp [diffWalk] at this ⊢
    exact this

theorem diffWalk_coverage (bs as : List String) (k : Nat) :
    ∀ i < max bs.length as.length,
      ∃ r ∈ diffWalk bs as k, r.lineNumber = k + i + 1 := by
  induction bs, as, k using diffWalk.induct with
  | case1 k => intro i hi; simp at hi
  | case2 a as k ih =>
    intro i hi
    match i with
    | 0 =>
      refine ⟨⟨.added, k + 1, a⟩, ?_, by simp⟩
      rw [diffWalk_nil_cons]; exact List.mem_cons_self _ _
    | i + 1 =>
      simp only [List.length_nil, List.length_cons, Nat.zero_max] at hi
      obtain ⟨r, hr, hpos⟩ := ih i (by simp; omega)
      refine ⟨r, ?_, by omega⟩
      rw [diffWalk_nil_cons]; exact List.mem_cons_of_mem _ hr
  | case3 b bs k ih =>
    intro i hi
    match i with
    | 0 =>
      refine ⟨⟨.removed, k + 1, b⟩, ?_, by simp⟩
      rw [diffWalk_cons_nil]; exact List.mem_cons_self _ _
    | i + 1 =>
      simp only [List.length_nil, List.length_cons, Nat.max_zero] at hi
      obtain ⟨r, hr, hpos⟩ := ih i (by simp; omega)
      refine ⟨r, ?_, by omega⟩
      rw [diffWalk_cons_nil]; exact List.mem_cons_of_mem _ hr
  | case4 bs a as k ih =>
    intro i hi
    match i with
    | 0 =>
      refine ⟨⟨.unchanged, k + 1, a⟩, ?_, by simp⟩
      rw [diffWalk_cons_cons, if_pos rfl]; exact List.mem_cons_self _ _
    | i + 1 =>
      simp only [List.length_cons, Nat.succ_max_succ] at hi
      obtain ⟨r, hr, hpos⟩ := ih i (by omega)
      refine ⟨r, ?_, by omega⟩
      rw [diffWalk_cons_cons, if_pos rfl]; exact List.mem_cons_of_mem _ hr
  | case5 b bs a as k h ih =>
    intro i hi
    match i with
    | 0 =>
      refine ⟨⟨.removed, k + 1, b⟩, ?_, by simp⟩
      rw [diffWalk_cons_cons, if_neg h]; exact List.mem_cons_self _ _
    | i + 1 =>
      simp only [List.length_cons, Nat.succ_max_succ] at hi
      obtain ⟨r, hr, hpos⟩ := ih i (by omega)
      refine ⟨r, ?_, by omega⟩
      rw [diffWalk_cons_cons, if_neg h]
      exact List.mem_cons_of_mem _ (List.mem_cons_of_mem _ hr)

theorem diffWalk_head_lb (bs as : List String) (k : Nat) :
    ∀ y ∈ ((diffWalk bs as k).map fun r => r.lineNumber).head?, k + 1 ≤ y := by
  intro y hy
  have hy' := List.mem_of_mem_head? hy
  simp only [List.mem_map] at hy'
  obtain ⟨r, hr, rfl⟩ := hy'
  exact (diffWalk_mem_lineNumber hr).1

theorem diffWalk_chain' (bs as : List String) (k : Nat) :
    List.Chain' (· ≤ ·) ((diffWalk bs as k).map fun r => r.lineNumber) := by
  induction bs, as, k using diffWalk.induct with
  | case1 k => simp [diffWalk]
  | case2 a as k ih =>
    rw [diffWalk_nil_cons, List.map_cons, List.chain'_cons']
    refine ⟨fun y hy => ?_, ih⟩
    have := diffWalk_head_lb [] as (k + 1) y hy
    show k + 1 ≤ y
    omega
  | case3 b bs k ih =>
    rw [diffWalk_cons_nil, List.map_cons, List.chain'_cons']
    refine ⟨fun y hy => ?_, ih⟩
    have := diffWalk_head_lb bs [] (k + 1) y hy
    show k + 1 ≤ y
    omega
  | case4 bs a as k ih =>
    rw [diffWalk_cons_cons, if_pos rfl, List.map_cons, List.chain'_cons']
    refine ⟨fun y hy => ?_, ih⟩
    have := diffWalk_head_lb bs as (k + 1) y hy
    show k + 1 ≤ y
    omega
  | case5 b bs a as k h ih =>
    rw [diffWalk_cons_cons, if_neg h, List.map_cons, List.map_cons,
      List.chain'_cons', List.chain'_cons']
    refine ⟨fun y hy => by simp at hy; simp [hy], fun y hy => ?_, ih⟩
    have := diffWalk_head_lb bs as (k + 1) y hy
    show k + 1 ≤ y
    omega

theorem diffWalk_filter_pos_nil (bs as : List String) (k n : Nat) (h : n ≤ k) :
    (diffWalk bs as k).filter (fun r => r.lineNumber == n) = [] := by
  rw [List.filter_eq_nil_iff]
  intro r hr
  have := (diffWalk_mem_lineNumber hr).1
  simp
  omega

theorem diffWalk_filter_pos_le_two (bs as : List String) (k n : Nat) :
    ((diffWalk bs as k).filter fun r => r.lineNumber == n).length ≤ 2 := by
  induction bs, as, k using diffWalk.induct with
  | case1 k => simp [diffWalk]
  | case2 a as k ih =>
    rw [diffWalk_nil_cons, List.filter_cons]
    by_cases hn : k + 1 = n
    · subst hn
      have h0 := diffWalk_filter_pos_nil [] as (k + 1) (k + 1) (by omega)
      simp [h0]
    · simpa [hn] using ih
  | case3 b bs k ih =>
    rw [diffWalk_cons_nil, List.filter_cons]
    by_cases hn : k + 1 = n
    · subst hn
      have h0 := diffWalk_filter_pos_nil bs [] (k + 1) (k + 1) (by omega)
      simp [h0]
    · simpa [hn] using ih
  | case4 bs a as k ih =>
    rw [diffWalk_cons_cons, if_pos rfl, List.filter_cons]
    by_cases hn : k + 1 = n
    · subst hn
      have h0 := diffWalk_filter_pos_nil bs as (k + 1) (k + 1) (by omega)
      simp [h0]
    · simpa [hn] using ih
  | case5 b bs a as k h ih =>
    rw [diffWalk_cons_cons, if_neg h, List.filter_cons, List.filter_cons]
    by_cases hn : k + 1 = n
    · subst hn
      have h0 := diffWalk_filter_pos_nil bs as (k + 1) (k + 1) (by omega)
      simp [h0]
    · simpa [hn] using ih

theorem diffWalk_any_pos_nil (bs as : List String) (k n : Nat)
    (p : DiffLine → Bool) (h : n ≤ k) :
    ((diffWalk bs as k).any fun r => p r && r.lineNumber == n) = false := by
  rw [List.any_eq_false]
  intro r hr
  have := (diffWalk_mem_lineNumber hr).1
  simp
  intro
  omega

/-- Characterization of where `diffWalk` emits a `removed` record: exactly
at the aligned positions where the before side is defined and the after
side does not carry the same line. -/
theorem diffWalk_any_removed (bs as : List String) (k : Nat) :
    ∀ i, ((diffWalk bs as k).any fun r =>
        r.kind == DiffKind.removed && r.lineNumber == k + i + 1) =
      (bs[i]?.isSome && !(as[i]? == bs[i]?)) := by
  induction bs, as, k using diffWalk.induct with
  | case1 k => intro i; simp [diffWalk]
  | case2 a as k ih =>
    intro i
    rw [diffWalk_nil_cons, List.any_cons]
    match i with
    | 0 =>
      have h0 := diffWalk_any_pos_nil [] as (k + 1) (k + 1)
        (fun r => r.kind == DiffKind.removed) (by omega)
      simp [h0]
    | i + 1 =>
      have harith : k + (i + 1) + 1 = (k + 1) + i + 1 := by omega
      rw [harith]
      have hne : ((k + 1 : Nat) == (k + 1) + i + 1) = false := by simp; omega
      simpa [hne] using ih i
  | case3 b bs k ih =>
    intro i
    rw [diffWalk_cons_nil, List.any_cons]
    match i with
    | 0 => simp
    | i + 1 =>
      have harith : k + (i + 1) + 1 = (k + 1) + i + 1 := by omega
      rw [harith]
      have hne : ((k + 1 : Nat) == (k + 1) + i + 1) = false := by simp; omega
      simpa [hne] using ih i
  | case4 bs a as k ih =>
    intro i
    rw [diffWalk_cons_cons, if_pos rfl, List.any_cons]
    match i with
    | 0 =>
      have h0 := diffWalk_any_pos_nil bs as (k + 1) (k + 1)
        (fun r => r.kind == DiffKind.removed) (by omega)
      simp [h0]
    | i + 1 =>
      have harith : k + (i + 1) + 1 = (k + 1) + i + 1 := by omega
      rw [harith]
      have hne : ((k + 1 : Nat) == (k + 1) + i + 1) = false := by simp; omega
      simpa [hne] using ih i
  | case5 b bs a as k h ih =>
    intro i
    rw [diffWalk_cons_cons, if_neg h, List.any_cons, List.any_cons]
    match i with
    | 0 =>
      have h' : ¬a = b := fun e => h e.symm
      simp [h']
    | i + 1 =>
      have harith : k + (i + 1) + 1 = (k + 1) + i + 1 := by omega
      rw [harith]
      have hne : ((k + 1 : Nat) == (k + 1) + i + 1) = false := by simp; omega
      simpa [hne] using ih i

/-- When both aligned positions are defined and differ, the walk emits a
`removed` record immediately followed by an `added` record, both at the
same position. -/
theorem diffWalk_pair (bs as : List String) (k : Nat) :
    ∀ i b a, bs[i]? = some b → as[i]? = some a → b ≠ a →
      ∃ j, (diffWalk bs as k)[j]? = some ⟨.removed, k + i + 1, b⟩ ∧
        (diffWalk bs as k)[j + 1]? = some ⟨.added, k + i + 1, a⟩ := by
  induction bs, as, k using diffWalk.induct with
  | case1 k => intro i b a hb ha hne; simp at hb
  | case2 a' as k ih => intro i b a hb ha hne; simp at hb
  | case3 b' bs k ih => intro i b a hb ha hne; simp at ha
  | case4 bs a' as k ih =>
    intro i b a hb ha hne
    match i with
    | 0 =>
      simp at hb ha
      exact absurd (hb.symm.trans ha) hne
    | i + 1 =>
      simp only [List.getElem?_cons_succ] at hb ha
      obtain ⟨j, hj1, hj2⟩ := ih i b a hb ha hne
      refine ⟨j + 1, ?_, ?_⟩
      · rw [diffWalk_cons_cons, if_pos rfl, List.getElem?_cons_succ, hj1]
        congr 2
        omega
      · rw [diffWalk_cons_cons, if_pos rfl, List.getElem?_cons_succ, hj2]
        congr 2
        omega
  | case5 b' bs a' as k h ih =>
    intro i b a hb ha hne
    match i with
    | 0 =>
      simp at hb ha
      subst hb
      subst ha
      refine ⟨0, ?_, ?_⟩
      · rw [diffWalk_cons_cons, if_neg h]
        simp
      · rw [diffWalk_cons_cons, if_neg h]
        simp
    | i + 1 =>
      simp only [List.getElem?_cons_succ] at hb ha
      obtain ⟨j, hj1, hj2⟩ := ih i b a hb ha hne
      refine ⟨j + 2, ?_, ?_⟩
      · rw [diffWalk_cons_cons, if_neg h, List.getElem?_cons_succ,
          List.getElem?_cons_succ, hj1]
        congr 2
        omega
      · rw [diffWalk_cons_cons, if_neg h, List.getElem?_cons_succ,
          List.getElem?_cons_succ, hj2]
        congr 2
        omega

/-- If the filter of a list leaves exactly one element, `find?` returns it. -/
theorem find?_of_filter_eq_singleton {α : Type} (p : α → Bool) (l : List α)
    (x : α) (h : l.filter p = [x]) : l.find? p = some x := by
  induction l with
  | nil => simp at h
  | cons hd tl ih =>
    by_cases hp : p hd = true
    · rw [List.filter_cons_of_pos hp] at h
      obtain ⟨rfl, -⟩ : hd = x ∧ tl.filter p = [] := by simpa using h
      simp [List.find?_cons, hp]
    · rw [List.filter_cons_of_neg hp] at h
      rw [List.find?_cons_of_neg _ hp]
      exact ih h

inductive AnnotationType where
  | info
  | warning
  | error
  | insight
deriving DecidableEq, Repr

/-- Model of `interface Annotation` from the source: a line number, a
message and a severity. -/
structure Annotation where
  line : Nat
  message : String
  type : AnnotationType
deriving DecidableEq, Repr

/-- Model of `annotations.find((a) => a.line === lineNumber)`. -/
def getAnnotationForLine (annotations : List Annotation) (lineNumber : Nat) :
    Option Annotation :=
  annotations.find? fun a => a.line == lineNumber

/-- The truncation-warning condition of the viewer:
`beforeLines.length > 500 || afterLines.length > 500`. -/
def truncated (beforeCode afterCode : String) : Bool :=
  decide ((splitLines beforeCode).length > 500) ||
    decide ((splitLines afterCode).length > 500)

/-- Split-view classification of the before panel
(`const isRemoved = !afterLinesSet.has(line);` over `beforeLines.slice(0, 500)`,
where `afterLinesSet` is built from the full after line list);
`none` when the row index is out of range. -/
def splitIsRemoved (beforeCode afterCode : String) (idx : Nat) : Option Bool :=
  (((splitLines beforeCode).take 500)[idx]?).map fun line =>
    !((splitLines afterCode).contains line)

/-- Split-view classification of the after panel
(`const isAdded = !beforeLinesSet.has(line);`). -/
def splitIsAdded (beforeCode afterCode : String) (idx : Nat) : Option Bool :=
  (((splitLines afterCode).take 500)[idx]?).map fun line =>
    !((splitLines beforeCode).contains line)

/-- Whether the unified view (`computeDiff`) shows a `removed` record at
position `idx + 1`. -/
def unifiedRemovedAt (beforeCode afterCode : String) (idx : Nat) : Bool :=
  (computeDiff beforeCode afterCode).any fun r =>
    r.kind == DiffKind.removed && r.lineNumber == idx + 1

/-- The while-loop diff of the first `DiffViewer` implementation, with an
explicit fuel parameter: one recursive call per loop iteration, `none`
when the fuel runs out before the loop guard
`beforeIdx < beforeLines.length || afterIdx < afterLines.length` turns
false.  Branches, in source order: `beforeLine === afterLine` →
`unchanged` at `afterIdx + 1` with content `afterLine || ""`;
`!afterLines.includes(beforeLine) && beforeLine !== undefined` → `removed`
at `beforeIdx + 1`; otherwise `added` at `afterIdx + 1` with content
`afterLine || ""`. -/
def naiveDiffLoop (beforeLines afterLines : List String) :
    Nat → Nat → Nat → Option (List DiffLine)
  | fuel, beforeIdx, afterIdx =>
    if beforeIdx < beforeLines.length ∨ afterIdx < afterLines.length then
      match fuel with
      | 0 => none
      | fuel + 1 =>
        let beforeLine := beforeLines[beforeIdx]?
        let afterLine := afterLines[afterIdx]?
        if beforeLine = afterLine then
          (naiveDiffLoop beforeLines afterLines fuel (beforeIdx + 1)
              (afterIdx + 1)).map
            (⟨.unchanged, afterIdx + 1, afterLine.getD ""⟩ :: ·)
        else
          match beforeLine with
          | some bl =>
            if !(afterLines.contains bl) then
              (naiveDiffLoop beforeLines afterLines fuel (beforeIdx + 1)
                  afterIdx).map
                (⟨.removed, beforeIdx + 1, bl⟩ :: ·)
            else
              (naiveDiffLoop beforeLines afterLines fuel beforeIdx
                  (afterIdx + 1)).map
                (⟨.added, afterIdx + 1, afterLine.getD ""⟩ :: ·)
          | none =>
            (naiveDiffLoop beforeLines afterLines fuel beforeIdx
                (afterIdx + 1)).map
              (⟨.added, afterIdx + 1, afterLine.getD ""⟩ :: ·)
    else
      some []

/-- The first implementation's diff, run with `fuel` loop iterations. -/
def naiveDiff (beforeCode afterCode : String) (fuel : Nat) :
    Option (List DiffLine) :=
  naiveDiffLoop (splitLines beforeCode) (splitLines afterCode) fuel 0 0

theorem naiveDiffLoop_stuck (a : Nat) (fuel : Nat) (ha : 1 ≤ a) :
    naiveDiffLoop ["a", "a"] ["a"] fuel 1 a = none := by
  induction fuel generalizing a with
  | zero =>
    rw [naiveDiffLoop]
    simp
  | succ fuel ih =>
    rw [naiveDiffLoop]
    have hguard : 1 < (["a", "a"] : List String).length ∨
        a < (["a"] : List String).length := by simp
    rw [if_pos hguard]
    have hb : (["a", "a"] : List String)[1]? = some "a" := by decide
    have haft : (["a"] : List String)[a]? = none := by
      rw [List.getElem?_eq_none]
      simpa using ha
    simp only [hb, haft]
    have hcontains : (["a"] : List String).contains "a" = true := by decide
    simp [hcontains, ih (a + 1) (by omega)]

/-- Character list of `n` lines, each `"a"`, separated by newlines. -/
def aLines : Nat → List Char
  | 0 => []
  | 1 => ['a']
  | n + 2 => 'a' :: '\n' :: aLines (n + 1)

/-- A 600-line input text, used to exercise the truncation bound. -/
def big600 : String := String.mk (aLines 600)

/-- A 501-line input text, one line past the truncation bound. -/
def big501 : String := String.mk (aLines 501)

theorem splitLines_aLines (n : Nat) :
    splitLines (String.mk (aLines (n + 1))) = List.replicate (n + 1) "a" := by
  induction n with
  | zero => decide
  | succ n ih =>
    have h0 : aLines (n + 2) = 'a' :: '\n' :: aLines (n + 1) := rfl
    have h1 : splitLinesAux ('a' :: '\n' :: aLines (n + 1)) [] =
        splitLinesAux ('\n' :: aLines (n + 1)) ['a'] := by
      rw [splitLinesAux]
      simp
    have h2 : splitLinesAux ('\n' :: aLines (n + 1)) ['a'] =
        "a" :: splitLinesAux (aLines (n + 1)) [] := by
      rw [splitLinesAux]
      simp
    show splitLinesAux (String.mk (aLines (n + 2))).data [] = _
    rw [show (String.mk (aLines (n + 2))).data = aLines (n + 2) from rfl, h0,
      h1, h2]
    have ih' : splitLinesAux (aLines (n + 1)) [] = List.replicate (n + 1) "a" :=
      ih
    rw [ih']
    rfl

theorem splitLines_big600 : (splitLines big600).length = 600 := by
  have h := splitLines_aLines 599
  rw [show big600 = String.mk (aLines 600) from rfl, h]
  rw [List.length_replicate]

theorem splitLines_big501 : (splitLines big501).length = 501 := by
  have h := splitLines_aLines 500
  rw [show big501 = String.mk (aLines 501) from rfl, h]
  rw [List.length_replicate]

/-- `splitLines` never yields an empty list (JavaScript `split` always
returns at least one chunk). -/
theorem splitLines_ne_nil (s : String) : splitLines s ≠ [] := by
  show splitLinesAux s.data [] ≠ []
  generalize s.data = cs
  generalize ([] : List Char) = acc
  induction cs generalizing acc with
  | nil => simp [splitLinesAux]
  | cons c cs ih =>
    rw [splitLinesAux]
    by_cases h : c = '\n'
    · simp [h]
    · simpa [h] using ih (c :: acc)

/-- Every record emitted by `computeDiff` has a position in `1 … 500`. -/
theorem computeDiff_lineNumber_le (before after : String) {r : DiffLine}
    (hr : r ∈ computeDiff before after) :
    1 ≤ r.lineNumber ∧ r.lineNumber ≤ 500 := by
  rw [computeDiff_eq_diffWalk] at hr
  have h := diffWalk_mem_lineNumber hr
  have h1 : ((splitLines before).take MAX_LINES).length ≤ 500 := by
    simp [MAX_LINES]
  have h2 : ((splitLines after).take MAX_LINES).length ≤ 500 := by
    simp [MAX_LINES]
  have h3 := Nat.max_le.mpr ⟨h1, h2⟩
  omega

/-- Diffing a text against itself: every record `unchanged`, one record per
(truncated) line. -/
theorem computeDiff_self_spec (x : String) :
    ((computeDiff x x).all fun r => r.kind == DiffKind.unchanged) = true ∧
      (computeDiff x x).length = min ((splitLines x).length) MAX_LINES := by
  rw [computeDiff_eq_diffWalk]
  have h := diffWalk_self ((splitLines x).take MAX_LINES) 0
  refine ⟨h.1, ?_⟩
  rw [h.2, List.length_take, Nat.min_comm]

/-- C10: `computeDiff "" ""` returns exactly one record, `unchanged` at
position 1 with empty content — splitting the empty string yields a single
empty line, not a zero-length line sequence. -/
theorem computeDiff_empty_empty :
    computeDiff "" "" = [⟨.unchanged, 1, ""⟩] ∧ splitLines "" = [""] := by
  constructor
  · decide
  · decide

/-- C1, counterexample: `computeDiff "" "x"` is not an all-`added` result
(it starts with a `removed` record for the empty line), and symmetrically
`computeDiff "x" ""` is not all-`removed`; the claim that an empty side
behaves as a zero-length line sequence fails on the code. -/
theorem computeDiff_empty_side_not_all_added :
    ((computeDiff "" "x").all fun r => r.kind == DiffKind.added) = false ∧
      ((computeDiff "x" "").all fun r => r.kind == DiffKind.removed) = false ∧
      computeDiff "" "x" = [⟨.removed, 1, ""⟩, ⟨.added, 1, "x"⟩] := by
  refine ⟨by decide, by decide, by decide⟩

/-- C1, amended: an empty side is a single empty line.  `computeDiff ""
after` emits, at position 1, an `unchanged` record when `after`'s first
line is empty and otherwise a `removed` record (empty content) followed by
an `added` record with the first line; each later line of `after` yields
one `added` record at positions 2, 3, …; symmetrically for
`computeDiff before ""`. -/
theorem computeDiff_empty_side_spec (before after : String) :
    (computeDiff "" after =
      match (splitLines after).take MAX_LINES with
      | [] => []
      | a :: rest =>
        (if a = "" then [⟨.unchanged, 1, ""⟩]
         else [⟨.removed, 1, ""⟩, ⟨.added, 1, a⟩]) ++ addedFrom rest 2)
    ∧ (computeDiff before "" =
      match (splitLines before).take MAX_LINES with
      | [] => []
      | b :: rest =>
        (if b = "" then [⟨.unchanged, 1, ""⟩]
         else [⟨.removed, 1, b⟩, ⟨.added, 1, ""⟩]) ++ removedFrom rest 2) := by
  have hempty : (splitLines "").take MAX_LINES = [""] := by decide
  constructor
  · rw [computeDiff_eq_diffWalk, hempty]
    rcases hX : (splitLines after).take MAX_LINES with - | ⟨a, rest⟩
    · exact absurd (List.take_eq_nil_iff.mp hX)
        (by simp [MAX_LINES, splitLines_ne_nil])
    · rw [diffWalk_cons_cons]
      by_cases ha : a = ""
      · rw [if_pos ha.symm, diffWalk_nil_left]
        simp [ha]
      · rw [if_neg fun e => ha e.symm, diffWalk_nil_left]
        simp [ha]
  · rw [computeDiff_eq_diffWalk, hempty]
    rcases hX : (splitLines before).take MAX_LINES with - | ⟨b, rest⟩
    · exact absurd (List.take_eq_nil_iff.mp hX)
        (by simp [MAX_LINES, splitLines_ne_nil])
    · rw [diffWalk_cons_cons]
      by_cases hb : b = ""
      · rw [if_pos hb, diffWalk_nil_right]
        simp [hb]
      · rw [if_neg hb, diffWalk_nil_right]
        simp [hb]

/-- C2: the `removed` + `unchanged` records, in emitted order, carry
exactly the (truncated) before line sequence; the `added` + `unchanged`
records carry exactly the (truncated) after line sequence. -/
theorem computeDiff_projections (before after : String) :
    (((computeDiff before after).filter fun r => !(r.kind == DiffKind.added)).map
        (fun r => r.content) = (splitLines before).take MAX_LINES)
    ∧ (((computeDiff before after).filter fun r => !(r.kind == DiffKind.removed)).map
        (fun r => r.content) = (splitLines after).take MAX_LINES) := by
  constructor
  · rw [computeDiff_eq_diffWalk]
    exact diffWalk_proj_before _ _ 0
  · rw [computeDiff_eq_diffWalk]
    exact diffWalk_proj_after _ _ 0

/-- C7, amended: diffing a text against itself yields only `unchanged`
records, one per line of the text after truncation at `MAX_LINES`
(i.e. `min (line count) 500` records, not always the full line count). -/
theorem computeDiff_self_unchanged (x : String) :
    ((computeDiff x x).all fun r => r.kind == DiffKind.unchanged) = true ∧
      (computeDiff x x).length = min ((splitLines x).length) MAX_LINES :=
  computeDiff_self_spec x

/-- C7, counterexample: on a 501-line text the self-diff has 500 records,
not 501 — the record count does not equal the line count. -/
theorem computeDiff_self_truncates :
    (computeDiff big501 big501).length ≠ (splitLines big501).length := by
  have h := (computeDiff_self_spec big501).2
  rw [h, splitLines_big501]
  decide

/-- C3 (code bug): the first, membership-based while-loop implementation
does not terminate on `beforeCode = "a\na"`, `afterCode = "a"`.  After the
first (equal) line is consumed, `beforeIdx` is stuck at 1 while only
`afterIdx` grows: `beforeLines[1] = "a"` occurs in `afterLines`, so the
`removed` branch is never taken, and the loop guard stays true because
`beforeIdx < beforeLines.length`.  No finite fuel completes the loop. -/
theorem naiveDiff_nonterminating (fuel : Nat) :
    naiveDiff "a\na" "a" fuel = none := by
  have hsplit1 : splitLines "a\na" = ["a", "a"] := by decide
  have hsplit2 : splitLines "a" = ["a"] := by decide
  rw [naiveDiff, hsplit1, hsplit2]
  match fuel with
  | 0 =>
    rw [naiveDiffLoop]
    simp
  | fuel + 1 =>
    rw [naiveDiffLoop]
    have hb : (["a", "a"] : List String)[0]? = some "a" := by decide
    have ha : (["a"] : List String)[0]? = some "a" := by decide
    simp only [hb, ha]
    simp [naiveDiffLoop_stuck 1 fuel (Nat.le_refl 1)]

/-- C4: with 600 input lines on each side, every emitted record sits at a
position in `1 … 500`, every position `1 … 500` is covered, and the viewer
reports the truncation banner with the original lengths 600/600. -/
theorem computeDiff_truncation_600 (before after : String)
    (hb : (splitLines before).length = 600)
    (ha : (splitLines after).length = 600) :
    ((computeDiff before after).all fun r =>
        1 ≤ r.lineNumber && r.lineNumber ≤ 500) = true ∧
      ((List.range 500).all fun i =>
        (computeDiff before after).any fun r => r.lineNumber == i + 1) = true ∧
      truncated before after = true ∧
      (splitLines before).length = 600 ∧ (splitLines after).length = 600 := by
  refine ⟨?_, ?_, ?_, hb, ha⟩
  · rw [List.all_eq_true]
    intro r hr
    have h := computeDiff_lineNumber_le before after hr
    simp only [Bool.and_eq_true, decide_eq_true_eq]
    omega
  · rw [List.all_eq_true]
    intro i hi
    rw [List.any_eq_true]
    rw [List.mem_range] at hi
    have hBlen : ((splitLines before).take MAX_LINES).length = 500 := by
      simp [MAX_LINES, List.length_take, hb]
    have hAlen : ((splitLines after).take MAX_LINES).length = 500 := by
      simp [MAX_LINES, List.length_take, ha]
    have hcov := diffWalk_coverage ((splitLines before).take MAX_LINES)
      ((splitLines after).take MAX_LINES) 0 i (by rw [hBlen, hAlen]; simpa)
    obtain ⟨r, hrmem, hrpos⟩ := hcov
    rw [computeDiff_eq_diffWalk]
    exact ⟨r, hrmem, by simp [hrpos]⟩
  · simp [truncated, hb, ha]

/-- Witness for C4 at a concrete 600-line input. -/
theorem computeDiff_truncation_600_witness :
    (splitLines big600).length = 600 ∧
      truncated big600 big600 = true ∧
      ((computeDiff big600 big600).all fun r =>
        1 ≤ r.lineNumber && r.lineNumber ≤ 500) = true :=
  ⟨splitLines_big600,
    (computeDiff_truncation_600 big600 big600 splitLines_big600
      splitLines_big600).2.2.1,
    (computeDiff_truncation_600 big600 big600 splitLines_big600
      splitLines_big600).1⟩

/-- C5: whenever both truncated sides are defined at aligned index `i` and
differ, `computeDiff` emits a `removed` record at position `i + 1`
immediately followed by an `added` record at the same position. -/
theorem computeDiff_differing_pair (before after : String) (i : Nat)
    (b a : String)
    (hb : ((splitLines before).take MAX_LINES)[i]? = some b)
    (ha : ((splitLines after).take MAX_LINES)[i]? = some a)
    (hne : b ≠ a) :
    ∃ j, (computeDiff before after)[j]? = some ⟨.removed, i + 1, b⟩ ∧
      (computeDiff before after)[j + 1]? = some ⟨.added, i + 1, a⟩ := by
  rw [computeDiff_eq_diffWalk]
  have h := diffWalk_pair _ _ 0 i b a hb ha hne
  simpa using h

/-- Witness for C5 at the concrete input `"x"` / `"y"`. -/
theorem computeDiff_differing_pair_witness :
    ((splitLines "x").take MAX_LINES)[0]? = some "x" ∧
      ((splitLines "y").take MAX_LINES)[0]? = some "y" ∧
      "x" ≠ "y" ∧
      ∃ j, (computeDiff "x" "y")[j]? = some ⟨.removed, 1, "x"⟩ ∧
        (computeDiff "x" "y")[j + 1]? = some ⟨.added, 1, "y"⟩ :=
  ⟨by decide, by decide, by decide,
    computeDiff_differing_pair "x" "y" 0 "x" "y" (by decide) (by decide)
      (by decide)⟩

/-- C6, counterexample: on `before = "a\nb"`, `after = "b\na"` the split
view classifies before-line 0 (`"a"`) as not removed (its text occurs in
the after side), while `computeDiff` emits a `removed` record at position
1 — the two views do not share one semantics. -/
theorem split_vs_unified_disagree :
    splitIsRemoved "a\nb" "b\na" 0 = some false ∧
      unifiedRemovedAt "a\nb" "b\na" 0 = true := by
  constructor
  · decide
  · decide

/-- C6, amended: the implementation mixes two semantics.  The split view
classifies a before-line as `removed` iff its text occurs nowhere in the
after side (membership), while `computeDiff` (unified view) classifies
position `i` as `removed` iff the after side's line at the same index
differs (positional); the two disagree, e.g. on reordered lines. -/
theorem split_and_unified_semantics (before after : String) (i : Nat)
    (b : String) (hb : ((splitLines before).take 500)[i]? = some b) :
    splitIsRemoved before after i = some (!((splitLines after).contains b)) ∧
      unifiedRemovedAt before after i =
        !(((splitLines after).take 500)[i]? == some b) := by
  constructor
  · simp [splitIsRemoved, hb]
  · have h := diffWalk_any_removed ((splitLines before).take MAX_LINES)
      ((splitLines after).take MAX_LINES) 0 i
    have hb' : ((splitLines before).take MAX_LINES)[i]? = some b := by
      simpa [MAX_LINES] using hb
    rw [hb'] at h
    simp only [Nat.zero_add] at h
    simp only [unifiedRemovedAt]
    rw [computeDiff_eq_diffWalk, h]
    simp [MAX_LINES]

/-- Witness for C6's amended statement at `"a"` / `"b"`, index 0. -/
theorem split_and_unified_semantics_witness :
    ((splitLines "a").take 500)[0]? = some "a" ∧
      splitIsRemoved "a" "b" 0 = some (!((splitLines "b").contains "a")) ∧
      unifiedRemovedAt "a" "b" 0 =
        !(((splitLines "b").take 500)[0]? == some "a") :=
  ⟨by decide,
    (split_and_unified_semantics "a" "b" 0 "a" (by decide)).1,
    (split_and_unified_semantics "a" "b" 0 "a" (by decide)).2⟩

/-- C8: when exactly one annotation carries the queried line number, the
lookup returns exactly that annotation; and any annotation the lookup
returns for a record of `computeDiff` has `line ≤ 500`, so an annotation
beyond the truncated range is never matched (and the lookup is total —
it cannot throw). -/
theorem annotation_lookup :
    (∀ (before after : String) (r : DiffLine) (anns : List Annotation)
        (x : Annotation),
      r ∈ computeDiff before after → r.kind = DiffKind.added →
        anns.filter (fun a => a.line == r.lineNumber) = [x] →
        getAnnotationForLine anns r.lineNumber = some x) ∧
    (∀ (before after : String) (anns : List Annotation) (r : DiffLine)
        (y : Annotation),
      r ∈ computeDiff before after →
        getAnnotationForLine anns r.lineNumber = some y → y.line ≤ 500) := by
  constructor
  · intro before after r anns x hr hkind hfilter
    simp only [getAnnotationForLine]
    exact find?_of_filter_eq_singleton _ _ _ hfilter
  · intro before after anns r y hr hfind
    simp only [getAnnotationForLine] at hfind
    have h1 := List.find?_some hfind
    have h2 := computeDiff_lineNumber_le before after hr
    simp at h1
    omega

/-- Witness for C8: an `added` record at position 4 and a single annotation
with `line = 4`; plus a returned annotation's line bound. -/
theorem annotation_lookup_witness :
    (⟨.added, 4, "d"⟩ : DiffLine) ∈ computeDiff "a\nb\nc" "a\nb\nc\nd" ∧
      getAnnotationForLine [⟨4, "note", .info⟩]
        (⟨.added, 4, "d"⟩ : DiffLine).lineNumber = some ⟨4, "note", .info⟩ ∧
      (⟨1, "note", .info⟩ : Annotation).line ≤ 500 :=
  ⟨by decide,
    annotation_lookup.1 "a\nb\nc" "a\nb\nc\nd" ⟨.added, 4, "d"⟩
      [⟨4, "note", .info⟩] ⟨4, "note", .info⟩ (by decide) (by decide)
      (by decide),
    annotation_lookup.2 "a" "b" [⟨1, "note", .info⟩] ⟨.removed, 1, "a"⟩
      ⟨1, "note", .info⟩ (by decide) (by decide)⟩

/-- C9: every emitted position lies in `1 … 500`, positions are
non-decreasing in emission order, at most two records share one position,
and at most 1000 records are emitted. -/
theorem computeDiff_lineNumber_invariants (before after : String) :
    ((computeDiff before after).all fun r =>
        1 ≤ r.lineNumber && r.lineNumber ≤ 500) = true ∧
      List.Chain' (· ≤ ·)
        ((computeDiff before after).map fun r => r.lineNumber) ∧
      (∀ n : Nat, ((computeDiff before after).filter fun r =>
        r.lineNumber == n).length ≤ 2) ∧
      (computeDiff before after).length ≤ 1000 := by
  refine ⟨?_, ?_, ?_, ?_⟩
  · rw [List.all_eq_true]
    intro r hr
    have h := computeDiff_lineNumber_le before after hr
    simp only [Bool.and_eq_true, decide_eq_true_eq]
    omega
  · rw [computeDiff_eq_diffWalk]
    exact diffWalk_chain' _ _ 0
  · intro n
    rw [computeDiff_eq_diffWalk]
    exact diffWalk_filter_pos_le_two _ _ 0 n
  · rw [computeDiff_eq_diffWalk]
    have h := diffWalk_length_le ((splitLines before).take MAX_LINES)
      ((splitLines after).take MAX_LINES) 0
    have h1 : ((splitLines before).take MAX_LINES).length ≤ 500 := by
      simp [MAX_LINES]
    have h2 : ((splitLines after).take MAX_LINES).length ≤ 500 := by
      simp [MAX_LINES]
    have h3 := Nat.max_le.mpr ⟨h1, h2⟩
    omega

end GitStory